import Mathlib

/-!
Shallow embedding of the `cw1-whitelist` contract (the `sylvia` repository):
`src/contracts/cw1-whitelist/src/contract.rs` and `src/contracts/cw1-whitelist/src/cw1.rs`.

Modelling choices:
* `Addr` is a canonical identity string; we model it as `String`.  Address
  validation (`deps.api.addr_validate`) is an external collaborator and is
  passed in explicitly as `api : String → Option String` (`none` = validation
  failure, `some c` = the canonicalized address).
* The storage `Map<&Addr, Empty>` is modelled by its ascending key list
  (`State.admins`); `Item<bool>` by `State.mutable`.
* Fallible entry points return `Except ContractError (State × Response M)`.
  Returning `.error` models the host's transactional semantics: a failed call
  reverts every storage write of that call, so no intermediate state escapes.
* Outbound messages (`CosmosMsg`) are opaque to this contract; we model them
  by a type parameter `M`.
-/

namespace Cw1Whitelist

/-- Comparison of characters by code point. -/
def charLt (a b : Char) : Bool := a.toNat < b.toNat

/-- Lexicographic comparison of character lists. -/
def charListLt : List Char → List Char → Bool
  | [], [] => false
  | [], _ :: _ => true
  | _ :: _, [] => false
  | a :: as, b :: bs =>
    if charLt a b then true
    else if charLt b a then false
    else charListLt as bs

/-- Rust's `Ord` on `String`: lexicographic byte-wise order, which on UTF-8
strings coincides with lexicographic code-point order. -/
def strLt (a b : String) : Bool := charListLt a.data b.data

/-- The corresponding non-strict order (total: `a ≤ b ↔ ¬ b < a`). -/
def strLe (a b : String) : Bool := !(strLt b a)

/-- Modelled from the spec: the error enum lives in `crate::error`, which is
not under `src/`.  `Unauthorized` and `ContractFrozen` appear verbatim in the
source and its tests; the spec names the address-validation failure
`InvalidPrincipal` (the source wraps the external `StdError`). -/
inductive ContractError where
  | Unauthorized
  | ContractFrozen
  | InvalidPrincipal
deriving DecidableEq

/-- CosmWasm `Response`, restricted to the fields this contract populates:
the outbound messages and the attributes. -/
structure Response (M : Type) where
  messages : List M
  attributes : List (String × String)
deriving DecidableEq

/-- `Response::new()`. -/
def Response.new {M : Type} : Response M := ⟨[], []⟩

/-- `Response::add_messages` (appends, preserving order). -/
def Response.add_messages {M : Type} (r : Response M) (msgs : List M) : Response M :=
  ⟨r.messages ++ msgs, r.attributes⟩

/-- `Response::add_attribute` (appends one key/value pair). -/
def Response.add_attribute {M : Type} (r : Response M) (k v : String) : Response M :=
  ⟨r.messages, r.attributes ++ [(k, v)]⟩

/-- Contract state: the `admins` map, represented by its key list in ascending
order, and the `mutable` item. -/
structure State where
  admins : List String
  mutable : Bool
deriving DecidableEq

/-- Modelled from the spec: `AdminListResponse` lives in `crate::responses`,
not under `src/`; its fields (`admins`, `mutable`) are fixed by the tests in
`contract.rs`. -/
structure AdminListResponse where
  admins : List String
  mutable : Bool
deriving DecidableEq

/-- Modelled from the spec: `CanExecuteResp` lives in the external `cw1`
interface crate; its single field `can_execute` is fixed by `cw1.rs`. -/
structure CanExecuteResp where
  can_execute : Bool
deriving DecidableEq

/-- `is_admin`: point lookup in the `admins` map. -/
def is_admin (st : State) (addr : String) : Bool :=
  st.admins.contains addr

/-- Rust `slice::binary_search` on a sorted string slice, written with an
explicit fuel argument so that it stays kernel-computable; the fuel passed by
`rustBinarySearch` (`length + 1`) always suffices because `right - left`
shrinks every iteration.  `.ok i` = found at index `i`, `.error i` =
not found, `i` is the insertion point. -/
def binarySearchGo (xs : List String) (key : String) :
    Nat → Nat → Nat → Except Nat Nat
  | 0, left, _ => .error left
  | fuel + 1, left, right =>
    if left < right then
      let mid := left + (right - left) / 2
      let x := xs.getD mid ""
      if strLt x key then binarySearchGo xs key fuel (mid + 1) right
      else if strLt key x then binarySearchGo xs key fuel left mid
      else .ok mid
    else .error left

/-- `xs.binary_search(&key)` over the whole slice. -/
def rustBinarySearch (xs : List String) (key : String) : Except Nat Nat :=
  binarySearchGo xs key (xs.length + 1) 0 xs.length

/-- The `to_remove` computation of `update_admins`: filter the current admin
keys (ascending) with the stateful closure over `low_idx`.  A key is kept
(not removed) exactly when `admins[low_idx..].binary_search` finds it; in
either case `low_idx` is assigned the index returned by the binary search —
which is relative to the slice `admins[low_idx..]`, exactly as in the
source. -/
def to_remove (target : List String) : List String → Nat → List String
  | [], _ => []
  | a :: rest, lowIdx =>
    if target.length ≤ lowIdx then a :: to_remove target rest lowIdx
    else
      match rustBinarySearch (target.drop lowIdx) a with
      | .ok idx => to_remove target rest idx
      | .error idx => a :: to_remove target rest idx

/-- The successive values taken by the `low_idx` cursor while the filter of
`update_admins` processes the current admin keys, starting from the given
initial value; mirrors `to_remove` step for step. -/
def cursorTrace (target : List String) : List String → Nat → List Nat
  | [], _ => []
  | a :: rest, lowIdx =>
    if target.length ≤ lowIdx then lowIdx :: cursorTrace target rest lowIdx
    else
      match rustBinarySearch (target.drop lowIdx) a with
      | .ok idx => idx :: cursorTrace target rest idx
      | .error idx => idx :: cursorTrace target rest idx

/-- `Map::save` on a key: insert into the ascending key list (no duplicate if
already present). -/
def mapInsert (k : String) : List String → List String
  | [] => [k]
  | a :: rest =>
    if strLt k a then k :: a :: rest
    else if k = a then a :: rest
    else a :: mapInsert k rest

/-- `Map::remove` on a key: delete it from the key list. -/
def mapRemove (k : String) (l : List String) : List String :=
  l.filter (fun a => a ≠ k)

/-- The final loop of `update_admins` (also the body of `instantiate`):
`for admin in admins { let admin = deps.api.addr_validate(&admin)?;
self.admins.save(deps.storage, &admin, &Empty {})?; }`. -/
def insertLoop (api : String → Option String) :
    List String → List String → Except ContractError (List String)
  | [], l => .ok l
  | t :: ts, l =>
    match api t with
    | none => .error .InvalidPrincipal
    | some c => insertLoop api ts (mapInsert c l)

/-- `instantiate`: validate and insert every admin, then save `mutable`.
(The contract-version bookkeeping is an external collaborator and carries no
observable state in this model.) -/
def instantiate {M : Type} (api : String → Option String) (admins : List String)
    (mutable : Bool) : Except ContractError (State × Response M) :=
  match insertLoop api admins [] with
  | .error e => .error e
  | .ok l => .ok ({ admins := l, mutable := mutable }, Response.new)

/-- `freeze`: `Unauthorized` unless the sender is an admin, else set
`mutable` to `false` and emit `action=freeze`. -/
def freeze {M : Type} (st : State) (sender : String) :
    Except ContractError (State × Response M) :=
  if !(is_admin st sender) then .error .Unauthorized
  else .ok ({ st with mutable := false }, Response.new.add_attribute "action" "freeze")

/-- `update_admins`: authorization check, freeze check, sort the raw target
list, compute `to_remove` with the cursor-filter, apply the removals, then
validate-and-insert every (sorted) target entry; emit `action=update_admins`.
An error reverts the call (transactional host semantics). -/
def update_admins {M : Type} (api : String → Option String) (st : State)
    (sender : String) (admins : List String) :
    Except ContractError (State × Response M) :=
  if !(is_admin st sender) then .error .Unauthorized
  else if !(st.mutable) then .error .ContractFrozen
  else
    let sorted := List.insertionSort (fun a b => strLe a b = true) admins
    let toRemove := to_remove sorted st.admins 0
    let afterRemove := toRemove.foldl (fun l a => mapRemove a l) st.admins
    match insertLoop api sorted afterRemove with
    | .error e => .error e
    | .ok l =>
      .ok ({ st with admins := l }, Response.new.add_attribute "action" "update_admins")

/-- `admin_list` query: all map keys in ascending order plus the flag. -/
def admin_list (st : State) : AdminListResponse :=
  ⟨st.admins, st.mutable⟩

/-- `Cw1::execute` (`cw1.rs`): `Unauthorized` unless the sender is an admin,
else re-emit the messages unchanged with `action=execute`.  It performs no
storage write. -/
def execute {M : Type} (st : State) (sender : String) (msgs : List M) :
    Except ContractError (Response M) :=
  if !(is_admin st sender) then .error .Unauthorized
  else .ok ((Response.new.add_messages msgs).add_attribute "action" "execute")

/-- `Cw1::can_execute` (`cw1.rs`): always `Ok`, answering `is_admin` on the
(unchecked) sender; the message is ignored. -/
def can_execute {M : Type} (st : State) (sender : String) (_msg : M) :
    Except ContractError CanExecuteResp :=
  .ok ⟨is_admin st sender⟩

/-- The contract's execute-message variants (callers and payloads). -/
inductive Cmd (M : Type) where
  | freeze (sender : String)
  | updateAdmins (sender : String) (admins : List String)
  | execute (sender : String) (msgs : List M)

/-- Discriminator for `Cmd.updateAdmins`. -/
def Cmd.isUpdateAdmins {M : Type} : Cmd M → Bool
  | .updateAdmins _ _ => true
  | _ => false

/-- One dispatched call against the contract state.  A failed call leaves the
state unchanged (the host reverts all storage writes of a failed call);
`execute` forwards messages and never writes storage. -/
def step {M : Type} (api : String → Option String) (st : State) : Cmd M → State
  | .freeze s =>
    match (freeze st s : Except ContractError (State × Response M)) with
    | .ok (st', _) => st'
    | .error _ => st
  | .updateAdmins s T =>
    match (update_admins api st s T : Except ContractError (State × Response M)) with
    | .ok (st', _) => st'
    | .error _ => st
  | .execute _ _ => st

/-! Helper lemmas about the string order and the loop bodies. -/

theorem charLt_asymm_eq {a b : Char} (h1 : charLt a b = false)
    (h2 : charLt b a = false) : a = b := by
  simp only [charLt, decide_eq_false_iff_not, Nat.not_lt] at h1 h2
  exact Char.ext (UInt32.ext (le_antisymm h2 h1))

theorem charListLt_asymm_eq : ∀ {as bs : List Char},
    charListLt as bs = false → charListLt bs as = false → as = bs
  | [], [], _, _ => rfl
  | [], _ :: _, h1, _ => by simp [charListLt] at h1
  | _ :: _, [], _, h2 => by simp [charListLt] at h2
  | a :: as, b :: bs, h1, h2 => by
    simp only [charListLt] at h1 h2
    by_cases hab : charLt a b = true
    · simp [hab] at h1
    · by_cases hba : charLt b a = true
      · simp [hba] at h2
      · simp only [Bool.not_eq_true] at hab hba
        simp only [hab, hba, Bool.false_eq_true, if_false] at h1 h2
        rw [charLt_asymm_eq hab hba, charListLt_asymm_eq h1 h2]

theorem strLt_asymm_eq {a b : String} (h1 : strLt a b = false)
    (h2 : strLt b a = false) : a = b := by
  cases a; cases b
  exact congrArg String.mk (charListLt_asymm_eq h1 h2)

/-- Soundness of the embedded Rust binary search: an `.ok` result means the
key occurs in the slice.  (This is the only binary-search fact the
reconciliation proof needs; completeness is not required because every target
entry is re-inserted after the removal pass.) -/
theorem binarySearchGo_ok_mem {xs : List String} {key : String} :
    ∀ {fuel left right i : Nat}, right ≤ xs.length →
      binarySearchGo xs key fuel left right = .ok i → key ∈ xs := by
  intro fuel
  induction fuel with
  | zero => intro left right i _ h; simp [binarySearchGo] at h
  | succ fuel ih =>
    intro left right i hr h
    simp only [binarySearchGo] at h
    by_cases hlr : left < right
    · rw [if_pos hlr] at h
      have hmid : left + (right - left) / 2 < right := by
        have := Nat.div_lt_self (Nat.sub_pos_of_lt hlr) (by norm_num : 1 < 2)
        omega
      by_cases h1 : strLt (xs.getD (left + (right - left) / 2) "") key = true
      · rw [if_pos h1] at h
        exact ih hr h
      · rw [if_neg h1] at h
        by_cases h2 : strLt key (xs.getD (left + (right - left) / 2) "") = true
        · rw [if_pos h2] at h
          exact ih (le_of_lt (lt_of_lt_of_le hmid hr)) h
        · rw [if_neg h2] at h
          simp only [Bool.not_eq_true] at h1 h2
          have hkey : xs.getD (left + (right - left) / 2) "" = key :=
            strLt_asymm_eq h1 h2
          have hlt : left + (right - left) / 2 < xs.length := lt_of_lt_of_le hmid hr
          rw [← hkey]
          rw [List.getD_eq_getElem xs "" hlt]
          exact List.getElem_mem hlt
    · rw [if_neg hlr] at h
      simp at h

theorem rustBinarySearch_ok_mem {xs : List String} {key : String} {i : Nat}
    (h : rustBinarySearch xs key = .ok i) : key ∈ xs :=
  binarySearchGo_ok_mem (le_refl xs.length) h

theorem mapInsert_mem {p k : String} : ∀ {l : List String},
    p ∈ mapInsert k l ↔ p = k ∨ p ∈ l
  | [] => by simp [mapInsert]
  | a :: rest => by
    simp only [mapInsert]
    by_cases h1 : strLt k a = true
    · rw [if_pos h1]
      simp [List.mem_cons]
    · rw [if_neg h1]
      by_cases h2 : k = a
      · subst h2
        rw [if_pos rfl]
        simp only [List.mem_cons]
        tauto
      · rw [if_neg h2]
        simp only [List.mem_cons]
        rw [@mapInsert_mem p k rest]
        tauto

theorem insertLoop_ok_mem {api : String → Option String} {p : String} :
    ∀ {ts l l' : List String}, insertLoop api ts l = .ok l' →
      (p ∈ l' ↔ (∃ t ∈ ts, api t = some p) ∨ p ∈ l)
  | [], l, l', h => by
    simp only [insertLoop, Except.ok.injEq] at h
    subst h; simp
  | t :: ts, l, l', h => by
    simp only [insertLoop] at h
    cases hapi : api t with
    | none => rw [hapi] at h; simp at h
    | some c =>
      rw [hapi] at h
      rw [insertLoop_ok_mem h, mapInsert_mem]
      constructor
      · rintro (⟨u, hu, hc⟩ | hpc | hp)
        · exact .inl ⟨u, by simp [hu], hc⟩
        · subst hpc; exact .inl ⟨t, by simp, hapi⟩
        · exact .inr hp
      · rintro (⟨u, hu, hc⟩ | hp)
        · rcases List.mem_cons.mp hu with h | h
          · subst h; rw [hapi] at hc
            exact .inr (.inl (Option.some_injective _ hc).symm)
          · exact .inl ⟨u, h, hc⟩
        · exact .inr (.inr hp)

theorem insertLoop_err {api : String → Option String} :
    ∀ {ts : List String}, (∃ t ∈ ts, api t = none) → ∀ l,
      insertLoop api ts l = .error ContractError.InvalidPrincipal
  | [], h, _ => by simp at h
  | t :: ts, h, l => by
    simp only [insertLoop]
    cases hapi : api t with
    | none => rfl
    | some c =>
      rcases h with ⟨u, hu, hnone⟩
      rcases List.mem_cons.mp hu with h | h
      · subst h; rw [hapi] at hnone; exact absurd hnone (by simp)
      · exact insertLoop_err ⟨u, h, hnone⟩ _

theorem removeFold_mem {p : String} : ∀ {rem init : List String},
    p ∈ List.foldl (fun l a => mapRemove a l) init rem ↔ p ∈ init ∧ p ∉ rem
  | [], init => by simp
  | r :: rem, init => by
    simp only [List.foldl_cons]
    rw [@removeFold_mem p rem (mapRemove r init)]
    simp only [mapRemove, List.mem_filter, List.mem_cons, decide_eq_true_eq]
    constructor
    · rintro ⟨⟨hi, hne⟩, hnr⟩
      exact ⟨hi, by rintro (h | h) <;> [exact hne h; exact hnr h]⟩
    · rintro ⟨hi, hn⟩
      exact ⟨⟨hi, fun h => hn (.inl h)⟩, fun h => hn (.inr h)⟩

theorem to_remove_nil_target : ∀ (l : List String) (i : Nat),
    to_remove [] l i = l
  | [], _ => rfl
  | a :: rest, i => by
    simp only [to_remove, List.length_nil, Nat.zero_le, if_pos]
    rw [to_remove_nil_target rest i]

/-- A current member that the removal filter keeps was found by the binary
search, hence occurs in the (sorted) target list. -/
theorem to_remove_kept {target : List String} {p : String} :
    ∀ (l : List String) (i : Nat), p ∈ l → p ∉ to_remove target l i →
      p ∈ target := by
  intro l
  induction l with
  | nil => intro i hp _; simp at hp
  | cons a rest ih =>
    intro i hp hkeep
    simp only [to_remove] at hkeep
    rcases List.mem_cons.mp hp with h | h
    · subst h
      by_cases hlen : target.length ≤ i
      · rw [if_pos hlen] at hkeep
        exact absurd (List.mem_cons_self p _) hkeep
      · rw [if_neg hlen] at hkeep
        cases hbs : rustBinarySearch (target.drop i) p with
        | ok idx => exact List.drop_subset i target (rustBinarySearch_ok_mem hbs)
        | error idx =>
          rw [hbs] at hkeep
          simp only [List.mem_cons, not_or] at hkeep
          exact absurd trivial hkeep.1
    · by_cases hlen : target.length ≤ i
      · rw [if_pos hlen] at hkeep
        exact ih i h (fun hc => hkeep (List.mem_cons_of_mem a hc))
      · rw [if_neg hlen] at hkeep
        cases hbs : rustBinarySearch (target.drop i) a with
        | ok idx =>
          rw [hbs] at hkeep
          exact ih idx h (by simpa using hkeep)
        | error idx =>
          rw [hbs] at hkeep
          simp only [List.mem_cons, not_or] at hkeep
          exact ih idx h hkeep.2

/-! Claim theorems. -/

/-- C3: the claim asserts that the `low_idx` cursor of `update_admins` only
ever advances and never resets to a smaller position.  The code, however,
assigns the binary search's slice-relative index to `low_idx` instead of
adding it, so the cursor can decrease: with current admins `["c","d"]` and
sorted target `["a","b","c","d"]`, processing `"c"` sets the cursor to `2`,
and processing `"d"` then sets it to `1` (the index of `"d"` inside the
suffix `["c","d"]`).  The successive cursor values are `[2, 1]`, which is not
monotone. -/
theorem cursor_not_monotonic :
    cursorTrace ["a", "b", "c", "d"] ["c", "d"] 0 = [2, 1] ∧
    ¬ List.Pairwise (fun a b => a ≤ b) (cursorTrace ["a", "b", "c", "d"] ["c", "d"] 0) := by
  constructor
  · rfl
  · decide

/-- C5: authorization is checked before the freeze check in `update_admins`:
a caller who is not a current admin always gets `Unauthorized` (even on a
frozen registry), and `ContractFrozen` is only ever returned to a current
admin. -/
theorem update_admins_unauthorized_first {M : Type} (api : String → Option String)
    (st : State) (sender : String) (T : List String) :
    (is_admin st sender = false →
      (update_admins api st sender T : Except ContractError (State × Response M)) =
        .error .Unauthorized) ∧
    ((update_admins api st sender T : Except ContractError (State × Response M)) =
        .error .ContractFrozen → is_admin st sender = true) := by
  constructor
  · intro h
    simp [update_admins, h]
  · intro h
    by_cases hadm : is_admin st sender = true
    · exact hadm
    · simp only [Bool.not_eq_true] at hadm
      simp [update_admins, hadm] at h

theorem update_admins_unauthorized_first_witness :
    (update_admins (fun s => some s) ⟨["alice"], false⟩ "bob" ["bob"] :
      Except ContractError (State × Response Nat)) = .error .Unauthorized :=
  (update_admins_unauthorized_first (fun s => some s) ⟨["alice"], false⟩ "bob" ["bob"]).1
    (by decide)

/-- C6: `execute` is a pure authorization gate in front of opaque
forwarding: an admin caller gets back exactly the input messages, unchanged
and in order, with the `action=execute` attribute; a non-admin caller gets
`Unauthorized`. -/
theorem execute_content_preserving {M : Type} (st : State) (sender : String)
    (msgs : List M) :
    (is_admin st sender = true →
      execute st sender msgs = .ok ⟨msgs, [("action", "execute")]⟩) ∧
    (is_admin st sender = false →
      execute st sender msgs = .error .Unauthorized) := by
  constructor
  · intro h
    simp [execute, h, Response.new, Response.add_messages, Response.add_attribute]
  · intro h
    simp [execute, h]

theorem execute_content_preserving_witness :
    execute ⟨["alice", "carl"], false⟩ "carl" [7, 8, 9] =
      .ok ⟨[7, 8, 9], [("action", "execute")]⟩ ∧
    execute ⟨["alice", "carl"], false⟩ "bob" [7, 8, 9] =
      (.error .Unauthorized : Except ContractError (Response Nat)) :=
  ⟨(execute_content_preserving ⟨["alice", "carl"], false⟩ "carl" [7, 8, 9]).1 (by decide),
   (execute_content_preserving ⟨["alice", "carl"], false⟩ "bob" [7, 8, 9]).2 (by decide)⟩

/-- C7: `can_execute` ignores the message entirely: its answer is the same
for any two messages and always equals `is_admin` on the sender. -/
theorem can_execute_ignores_message {M : Type} (st : State) (sender : String)
    (m1 m2 : M) :
    can_execute st sender m1 = can_execute st sender m2 ∧
    can_execute st sender m1 = .ok ⟨is_admin st sender⟩ :=
  ⟨rfl, rfl⟩

/-- C8: the authorization gate is consistent with enumeration: `is_admin p`
holds exactly when `p` appears in the `admins` list of `admin_list` (both
read the same `admins` map). -/
theorem is_admin_iff_admin_list (st : State) (p : String) :
    is_admin st p = true ↔ p ∈ (admin_list st).admins := by
  simp [is_admin, admin_list]

/-- C10: `freeze` never touches the admin set: whether it succeeds or fails
with `Unauthorized`, the admin set afterwards is the admin set before; only
the mutability flag changes on success. -/
theorem freeze_preserves_admins {M : Type} (api : String → Option String)
    (st : State) (c : String) :
    (step api st (Cmd.freeze c : Cmd M)).admins = st.admins ∧
    (∀ (st' : State) (resp : Response M),
      freeze st c = .ok (st', resp) → st'.admins = st.admins) := by
  constructor
  · by_cases h : is_admin st c = true
    · simp [step, freeze, h]
    · simp only [Bool.not_eq_true] at h
      simp [step, freeze, h]
  · intro st' resp h
    by_cases hadm : is_admin st c = true
    · simp only [freeze, hadm, Bool.not_true, Bool.false_eq_true, if_false,
        Except.ok.injEq, Prod.mk.injEq] at h
      rw [← h.1]
    · simp only [Bool.not_eq_true] at hadm
      simp [freeze, hadm] at h

theorem freeze_preserves_admins_witness :
    (step (fun s => some s) ⟨["alice"], true⟩ (Cmd.freeze "alice" : Cmd Nat)).admins =
      ["alice"] ∧
    (step (fun s => some s) ⟨["alice"], true⟩ (Cmd.freeze "bob" : Cmd Nat)).admins =
      ["alice"] :=
  ⟨(freeze_preserves_admins (fun s => some s) ⟨["alice"], true⟩ "alice").1,
   (freeze_preserves_admins (fun s => some s) ⟨["alice"], true⟩ "bob").1⟩

/-- C4 counterexample: the claim says that once the registry is frozen every
`update_admins` call fails with the `Frozen` error; but a non-admin caller
on a frozen registry gets `Unauthorized` (the authorization check runs
first), which is a different error. -/
theorem frozen_call_not_frozen_error :
    (update_admins (fun s => some s) ⟨["alice"], false⟩ "bob" ["bob"] :
      Except ContractError (State × Response Nat)) = .error .Unauthorized ∧
    ContractError.Unauthorized ≠ ContractError.ContractFrozen :=
  ⟨rfl, by decide⟩

/-- C4 (amended): once the registry is frozen, no sequence of
`update_admins` calls by any caller ever changes the state (in particular the
admin set), and every such call fails — with `ContractFrozen` when the caller
is a current admin, and with `Unauthorized` otherwise. -/
theorem frozen_admin_set_immutable {M : Type} (api : String → Option String)
    (st : State) (h : st.mutable = false) :
    (∀ cmds : List (Cmd M), (∀ c ∈ cmds, c.isUpdateAdmins = true) →
      List.foldl (step api) st cmds = st) ∧
    (∀ sender T,
      (update_admins api st sender T : Except ContractError (State × Response M)) =
        .error (if is_admin st sender then ContractError.ContractFrozen
                else ContractError.Unauthorized)) := by
  have hcall : ∀ sender T,
      (update_admins api st sender T : Except ContractError (State × Response M)) =
        .error (if is_admin st sender then ContractError.ContractFrozen
                else ContractError.Unauthorized) := by
    intro sender T
    by_cases hadm : is_admin st sender = true
    · simp [update_admins, hadm, h]
    · simp only [Bool.not_eq_true] at hadm
      simp [update_admins, hadm]
  refine ⟨?_, hcall⟩
  intro cmds hall
  induction cmds with
  | nil => rfl
  | cons c rest ih =>
    cases c with
    | updateAdmins s T =>
      have hstep : step api st (Cmd.updateAdmins s T : Cmd M) = st := by
        simp [step, hcall s T]
      simp only [List.foldl_cons, hstep]
      exact ih (fun c hc => hall c (List.mem_cons_of_mem _ hc))
    | freeze s =>
      have := hall _ (List.mem_cons_self _ _)
      simp [Cmd.isUpdateAdmins] at this
    | execute s msgs =>
      have := hall _ (List.mem_cons_self _ _)
      simp [Cmd.isUpdateAdmins] at this

theorem frozen_admin_set_immutable_witness :
    List.foldl (step (fun s => some s)) ⟨["alice"], false⟩
      ([Cmd.updateAdmins "alice" ["x"], Cmd.updateAdmins "bob" []] : List (Cmd Nat)) =
      ⟨["alice"], false⟩ ∧
    (update_admins (fun s => some s) ⟨["alice"], false⟩ "alice" ["x"] :
      Except ContractError (State × Response Nat)) = .error .ContractFrozen ∧
    (update_admins (fun s => some s) ⟨["alice"], false⟩ "bob" ["y"] :
      Except ContractError (State × Response Nat)) = .error .Unauthorized := by
  have h := @frozen_admin_set_immutable Nat (fun s => some s) ⟨["alice"], false⟩ rfl
  refine ⟨h.1 _ (by decide), ?_, ?_⟩
  · have := h.2 "alice" ["x"]
    simpa using this
  · have := h.2 "bob" ["y"]
    simpa using this

/-- C2: if a current admin calls `update_admins` on a mutable registry and
some entry of the new list fails validation, the call fails with the
validation error (`InvalidPrincipal`), and the state observed afterwards is
exactly the state before the call (the host reverts every write of a failed
call, so no removal or insertion is observable). -/
theorem update_admins_invalid_atomic {M : Type} (api : String → Option String)
    (st : State) (sender : String) (T : List String)
    (hadm : is_admin st sender = true) (hmut : st.mutable = true)
    (hbad : ∃ t ∈ T, api t = none) :
    (update_admins api st sender T : Except ContractError (State × Response M)) =
      .error .InvalidPrincipal ∧
    step api st (Cmd.updateAdmins sender T : Cmd M) = st := by
  have hbad' : ∃ t ∈ List.insertionSort (fun a b => strLe a b = true) T,
      api t = none := by
    rcases hbad with ⟨t, ht, hn⟩
    exact ⟨t, (List.perm_insertionSort _ T).mem_iff.mpr ht, hn⟩
  have hcall : (update_admins api st sender T :
      Except ContractError (State × Response M)) = .error .InvalidPrincipal := by
    simp only [update_admins, hadm, hmut, Bool.not_true, Bool.false_eq_true, if_false]
    rw [insertLoop_err hbad']
  exact ⟨hcall, by simp [step, hcall]⟩

theorem update_admins_invalid_atomic_witness :
    (update_admins (fun s => if s = "BAD" then none else some s)
      ⟨["alice"], true⟩ "alice" ["BAD", "alice"] :
      Except ContractError (State × Response Nat)) = .error .InvalidPrincipal ∧
    step (fun s => if s = "BAD" then none else some s) ⟨["alice"], true⟩
      (Cmd.updateAdmins "alice" ["BAD", "alice"] : Cmd Nat) = ⟨["alice"], true⟩ :=
  update_admins_invalid_atomic (fun s => if s = "BAD" then none else some s)
    ⟨["alice"], true⟩ "alice" ["BAD", "alice"] (by decide) rfl
    ⟨"BAD", by decide, by decide⟩

/-- C9: a current admin calling `update_admins` with the empty list on a
mutable registry succeeds and empties the admin set; from the resulting
state every principal is a non-admin, every `freeze`, `update_admins` or
`execute` call by any caller fails with `Unauthorized`, and no sequence of
calls ever changes the state again — the lockout is permanent. -/
theorem update_admins_empty_lockout {M : Type} (api : String → Option String)
    (st : State) (sender : String)
    (hadm : is_admin st sender = true) (hmut : st.mutable = true) :
    (update_admins api st sender [] : Except ContractError (State × Response M)) =
      .ok (⟨[], true⟩, ⟨[], [("action", "update_admins")]⟩) ∧
    (∀ p, is_admin ⟨[], true⟩ p = false) ∧
    (∀ c, (freeze ⟨[], true⟩ c : Except ContractError (State × Response M)) =
      .error .Unauthorized) ∧
    (∀ c T, (update_admins api ⟨[], true⟩ c T :
      Except ContractError (State × Response M)) = .error .Unauthorized) ∧
    (∀ c (msgs : List M), execute ⟨[], true⟩ c msgs = .error .Unauthorized) ∧
    (∀ cmds : List (Cmd M), List.foldl (step api) ⟨[], true⟩ cmds = ⟨[], true⟩) := by
  obtain ⟨adm, mu⟩ := st
  have hmut' : mu = true := hmut
  subst hmut'
  have hafter : List.foldl (fun l a => mapRemove a l) adm adm = [] := by
    refine List.eq_nil_iff_forall_not_mem.mpr (fun p hp => ?_)
    rw [removeFold_mem] at hp
    exact hp.2 hp.1
  refine ⟨?_, fun p => rfl, fun c => rfl, ?_, fun c msgs => rfl, ?_⟩
  · simp only [update_admins, hadm, Bool.not_true, Bool.false_eq_true, if_false,
      List.insertionSort]
    rw [to_remove_nil_target, hafter]
    rfl
  · intro c T
    simp [update_admins, is_admin]
  · intro cmds
    induction cmds with
    | nil => rfl
    | cons c rest ih =>
      cases c with
      | freeze s => exact ih
      | updateAdmins s T => exact ih
      | execute s msgs => exact ih

theorem update_admins_empty_lockout_witness :
    (update_admins (fun s => some s) ⟨["alice", "bob"], true⟩ "alice" [] :
      Except ContractError (State × Response Nat)) =
      .ok (⟨[], true⟩, ⟨[], [("action", "update_admins")]⟩) ∧
    is_admin ⟨[], true⟩ "alice" = false ∧
    (freeze ⟨[], true⟩ "alice" : Except ContractError (State × Response Nat)) =
      .error .Unauthorized ∧
    (update_admins (fun s => some s) ⟨[], true⟩ "alice" ["alice"] :
      Except ContractError (State × Response Nat)) = .error .Unauthorized ∧
    execute ⟨[], true⟩ "alice" ([1, 2] : List Nat) = .error .Unauthorized ∧
    List.foldl (step (fun s => some s)) ⟨[], true⟩
      ([Cmd.updateAdmins "bob" ["bob"], Cmd.freeze "bob"] : List (Cmd Nat)) =
      ⟨[], true⟩ := by
  have h := @update_admins_empty_lockout Nat (fun s => some s)
    ⟨["alice", "bob"], true⟩ "alice" (by decide) rfl
  exact ⟨h.1, h.2.1 "alice", h.2.2.1 "alice", h.2.2.2.1 "alice" ["alice"],
    h.2.2.2.2.1 "alice" [1, 2], h.2.2.2.2.2 _⟩

/-- C1: exact reconciliation.  If a current admin's `update_admins` call on
a mutable registry succeeds, the stored admin set afterwards — as reported by
`admin_list` — is exactly the set of canonicalized forms of the target list
`T`: `p` is an admin after the call iff some entry of `T` validates to `p`.
The hypothesis `hcanon` records that the stored admins are themselves
canonical (every stored key was produced by `addr_validate`, and validation
is idempotent on its own outputs). -/
theorem update_admins_exact_reconciliation {M : Type} (api : String → Option String)
    (st : State) (sender : String) (T : List String) (st' : State)
    (resp : Response M)
    (hcanon : ∀ a ∈ st.admins, api a = some a)
    (hok : update_admins api st sender T = .ok (st', resp)) (p : String) :
    p ∈ (admin_list st').admins ↔ ∃ t ∈ T, api t = some p := by
  by_cases hadm : is_admin st sender = true
  case neg =>
    simp only [Bool.not_eq_true] at hadm
    simp [update_admins, hadm] at hok
  by_cases hmut : st.mutable = true
  case neg =>
    simp only [Bool.not_eq_true] at hmut
    simp [update_admins, hadm, hmut] at hok
  simp only [update_admins, hadm, hmut, Bool.not_true, Bool.false_eq_true,
    if_false] at hok
  cases hins : insertLoop api (List.insertionSort (fun a b => strLe a b = true) T)
      (List.foldl (fun l a => mapRemove a l) st.admins
        (to_remove (List.insertionSort (fun a b => strLe a b = true) T) st.admins 0)) with
  | error e =>
    rw [hins] at hok
    simp at hok
  | ok l =>
    rw [hins] at hok
    simp only [Except.ok.injEq, Prod.mk.injEq] at hok
    have hst' : st' = { admins := l, mutable := true } := hok.1.symm
    subst hst'
    have hperm := List.perm_insertionSort (fun a b => strLe a b = true) T
    show p ∈ l ↔ _
    rw [insertLoop_ok_mem hins]
    constructor
    · rintro (⟨t, ht, hc⟩ | hafter)
      · exact ⟨t, hperm.mem_iff.mp ht, hc⟩
      · rw [removeFold_mem] at hafter
        have hpT : p ∈ List.insertionSort (fun a b => strLe a b = true) T :=
          to_remove_kept st.admins 0 hafter.1 hafter.2
        exact ⟨p, hperm.mem_iff.mp hpT, hcanon p hafter.1⟩
    · rintro ⟨t, ht, hc⟩
      exact .inl ⟨t, hperm.mem_iff.mpr ht, hc⟩

theorem update_admins_exact_reconciliation_witness :
    ("bob" ∈ (admin_list ⟨["alice", "bob"], true⟩).admins ↔
      ∃ t ∈ ["bob", "alice", "bob"], (fun s => some s) t = some "bob") ∧
    ("carl" ∈ (admin_list ⟨["alice", "bob"], true⟩).admins ↔
      ∃ t ∈ ["bob", "alice", "bob"], (fun s => some s) t = some "carl") := by
  have hok : (update_admins (fun s => some s) ⟨["alice", "carl"], true⟩ "alice"
      ["bob", "alice", "bob"] : Except ContractError (State × Response Nat)) =
      .ok (⟨["alice", "bob"], true⟩, ⟨[], [("action", "update_admins")]⟩) := rfl
  exact ⟨update_admins_exact_reconciliation (fun s => some s) ⟨["alice", "carl"], true⟩
      "alice" ["bob", "alice", "bob"] ⟨["alice", "bob"], true⟩
      ⟨[], [("action", "update_admins")]⟩ (by decide) hok "bob",
    update_admins_exact_reconciliation (fun s => some s) ⟨["alice", "carl"], true⟩
      "alice" ["bob", "alice", "bob"] ⟨["alice", "bob"], true⟩
      ⟨[], [("action", "update_admins")]⟩ (by decide) hok "carl"⟩

end Cw1Whitelist
